import Mathlib

/-!
Shallow embedding of the Huffman compression engine from `src/huffman.rs`
(rust-huffman-egui).  Rust `char` is modelled by Lean `Char`, `usize` by
`Nat`, `Vec`/arrays by `List`, `HashMap` by association lists with
front-insertion (so lookup returns the most recent insertion, matching
`HashMap::insert` overwrite semantics), `Option`/panics by `Option` /
an explicit `Outcome` type.  `std::collections::BinaryHeap` with the
reversed ordering of `HuffmanFreqTree` is modelled as a deterministic
minimum-priority queue over a list (pop removes the first element of
minimal weight; push appends); the Rust heap's tie order among
equal-weight elements is unspecified library behaviour, and every
concrete input evaluated below is chosen so that the relevant outcome
is the same under any tie order.
-/

set_option maxRecDepth 100000

namespace HuffRs

/-- `enum Sense { Left, Right }` from `src/huffman.rs`. -/
inductive Sense where
  | Left : Sense
  | Right : Sense
deriving DecidableEq, Repr

/-- `enum HuffmanTree { Leaf(char), Node((Box<HuffmanTree>, Box<HuffmanTree>)) }`. -/
inductive HuffmanTree where
  | Leaf (c : Char) : HuffmanTree
  | Node (s t : HuffmanTree) : HuffmanTree
deriving DecidableEq, Repr

/-- `type Path = Vec<Sense>;` -/
abbrev Path := List Sense

/-- `type Codewords = HashMap<char, Path>;` (association list; insertion
conses at the front, lookup takes the first hit, so a later insertion
shadows an earlier one exactly as `HashMap::insert` overwrites). -/
abbrev Codewords := List (Char × Path)

/-- `type CodewordsRev = HashMap<Path, char>;` -/
abbrev CodewordsRev := List (Path × Char)

/-- `type Frequencies = [usize; 256];` — a list of length 256. -/
abbrev Frequencies := List Nat

/-- `struct SerialisedHuffmanTree { tree, senses_count, encoded_chars }`.
`encoded_chars` holds byte values (each `< 256` when produced by the code). -/
structure SerialisedHuffmanTree where
  tree : HuffmanTree
  senses_count : Nat
  encoded_chars : List Nat
deriving DecidableEq, Repr

/-- `struct HuffmanFreqTree { frequencies, tree }`. -/
structure HuffmanFreqTree where
  frequencies : Frequencies
  tree : HuffmanTree
deriving DecidableEq, Repr

/-- `struct Huffman { freq_tree, text }`. -/
structure Huffman where
  freq_tree : HuffmanFreqTree
  text : List Char
deriving DecidableEq, Repr

/-- Result of a Rust function that can return normally, return an `Err`,
or panic (`unwrap` / `expect` / out-of-bounds index). -/
inductive Outcome (α : Type) where
  | ok (a : α) : Outcome α
  | err (msg : String) : Outcome α
  | panicked : Outcome α
deriving DecidableEq, Repr

/-- `HuffmanTree::weight`: `Leaf(c) => frequencies[*c as usize]`,
`Node((s,t)) => s.weight + t.weight`.  The in-pipeline trees only carry
leaf code points `< 256` (proved via `weightChecked_eq_weight`), so the
array read is modelled totally with `getD`; the bounds-checked model of
the same read is `weightChecked` below. -/
def weight (frequencies : Frequencies) : HuffmanTree → Nat
  | .Leaf c => frequencies.getD c.toNat 0
  | .Node s t => weight frequencies s + weight frequencies t

/-- Bounds-checked model of `HuffmanTree::weight`: the Rust index
`frequencies[n]` panics when `n` is outside the 256-slot array, which is
`none` here. -/
def weightChecked (frequencies : Frequencies) : HuffmanTree → Option Nat
  | .Leaf c => frequencies.get? c.toNat
  | .Node s t => do
      let a ← weightChecked frequencies s
      let b ← weightChecked frequencies t
      pure (a + b)

/-- `HuffmanTree::fill_codewords_with_acc` (encode direction):
at a leaf insert `(c, current_path)`; at a node recurse left with
`current_path.push(Left)` and then right with `current_path.push(Right)`. -/
def fill_codewords_with_acc : HuffmanTree → Codewords → Path → Codewords
  | .Leaf c, codewords, current_path => (c, current_path) :: codewords
  | .Node s t, codewords, current_path =>
      let cw1 := fill_codewords_with_acc s codewords (current_path ++ [Sense.Left])
      fill_codewords_with_acc t cw1 (current_path ++ [Sense.Right])

/-- `HuffmanTree::fill_codewords`. -/
def fill_codewords (t : HuffmanTree) : Codewords :=
  fill_codewords_with_acc t [] []

/-- `HuffmanTree::fill_codewords_rev_with_acc` (decode direction). -/
def fill_codewords_rev_with_acc : HuffmanTree → CodewordsRev → Path → CodewordsRev
  | .Leaf c, codewords_rev, current_path => (current_path, c) :: codewords_rev
  | .Node s t, codewords_rev, current_path =>
      let cw1 := fill_codewords_rev_with_acc s codewords_rev (current_path ++ [Sense.Left])
      fill_codewords_rev_with_acc t cw1 (current_path ++ [Sense.Right])

/-- `HuffmanTree::fill_codewords_rev`. -/
def fill_codewords_rev (t : HuffmanTree) : CodewordsRev :=
  fill_codewords_rev_with_acc t [] []

/-- `codewords.get(&c)` — `HashMap` lookup. -/
def getCW (codewords : Codewords) (c : Char) : Option Path :=
  (codewords.find? (fun e => e.1 = c)).map (·.2)

/-- `codewords_rev.get(&current_path)` — `HashMap` lookup. -/
def getCWR (codewords_rev : CodewordsRev) (p : Path) : Option Char :=
  (codewords_rev.find? (fun e => e.1 = p)).map (·.2)

/-- The bit value of a sense: `Left => 0, Right => 1`. -/
def senseBit : Sense → Nat
  | .Left => 0
  | .Right => 1

/-- One iteration of the packing loop in `senses_to_encoded_chars`:
eight senses become one byte, `n |= bit << offset` for `offset` 7 down
to 0, i.e. most significant bit first. -/
def packBytes : List Sense → List Nat
  | s0 :: s1 :: s2 :: s3 :: s4 :: s5 :: s6 :: s7 :: rest =>
      (senseBit s0 * 128 + senseBit s1 * 64 + senseBit s2 * 32 + senseBit s3 * 16 +
       senseBit s4 * 8 + senseBit s5 * 4 + senseBit s6 * 2 + senseBit s7) :: packBytes rest
  | _ => []
  -- the `_ => []` branch is unreachable in the pipeline: the loop runs on a
  -- list padded to a multiple of 8, so no short tail remains.

/-- `Huffman::senses_to_encoded_chars`: pad with `8 - len % 8` trailing
`Left` senses (note: a full 8 when `len` is already a multiple of 8),
pack eight bits per byte MSB-first, and return the bytes together with
`curr_path - padding_count`, the unpadded sense count. -/
def senses_to_encoded_chars (paths : List Sense) : List Nat × Nat :=
  let padding_count := 8 - paths.length % 8
  let padded := paths ++ List.replicate padding_count Sense.Left
  (packBytes padded, padded.length - padding_count)

/-- `Huffman::text_to_flattened_senses`: concatenate the codeword of each
character of the text in order; `codewords.get(&c).unwrap()` panics
(`none`) when a character has no codeword. -/
def text_to_flattened_senses (codewords : Codewords) : List Char → Option (List Sense)
  | [] => some []
  | c :: cs => do
      let path ← getCW codewords c
      let rest ← text_to_flattened_senses codewords cs
      pure (path ++ rest)

/-- `Huffman::compress`: build the codeword table from the tree, flatten
the text to senses, pack them, and assemble the `SerialisedHuffmanTree`.
`none` models the `unwrap` panic on a missing codeword. -/
def Huffman.compress (huf : Huffman) : Option SerialisedHuffmanTree := do
  let codewords := fill_codewords huf.freq_tree.tree
  let senses ← text_to_flattened_senses codewords huf.text
  let (encoded_chars, senses_count) := senses_to_encoded_chars senses
  pure { tree := huf.freq_tree.tree, senses_count := senses_count,
         encoded_chars := encoded_chars }

/-- The sense of bit `offset` of byte `n`: `((n >> offset) & 1) == 1`. -/
def senseOfBit (n offset : Nat) : Sense :=
  if (n >>> offset) % 2 = 1 then Sense.Right else Sense.Left

/-- Inner loop of `SerialisedHuffmanTree::encoded_chars_to_senses` over one
byte: for `offset` in `(0..=7).rev()`, break once `i > senses_count`
(modelled as a no-op continuation: once `i > senses_count` holds it keeps
holding, so the remaining offsets do nothing, exactly like `break`),
else push the sense of that bit and increment `i`. -/
def byteSenses (senses_count n : Nat) (acc : List Sense × Nat) : List Sense × Nat :=
  [7, 6, 5, 4, 3, 2, 1, 0].foldl
    (fun (st : List Sense × Nat) offset =>
      if st.2 > senses_count then st
      else (st.1 ++ [senseOfBit n offset], st.2 + 1))
    acc

/-- Outer loop of `encoded_chars_to_senses` over all bytes, threading the
bit counter `i`. -/
def sensesLoop (senses_count : Nat) : List Nat → List Sense × Nat → List Sense × Nat
  | [], st => st
  | n :: rest, st => sensesLoop senses_count rest (byteSenses senses_count n st)

/-- `SerialisedHuffmanTree::encoded_chars_to_senses`.  Note the loop guard
is `i > senses_count` (not `>=`), so one sense beyond `senses_count` is
still pushed whenever a bit is available. -/
def SerialisedHuffmanTree.encoded_chars_to_senses (s : SerialisedHuffmanTree) : List Sense :=
  (sensesLoop s.senses_count s.encoded_chars ([], 0)).1

/-- `Huffman::reconstruct_text`: walk the senses, growing `current_path`;
whenever it matches a reverse-codeword entry, emit the character and
clear the path.  A leftover nonempty path at the end is dropped without
any error. -/
def reconstruct_text (tree : HuffmanTree) (senses : List Sense) : List Char :=
  let codewords_rev := fill_codewords_rev tree
  (senses.foldl
    (fun (st : List Char × Path) sense =>
      let current_path := st.2 ++ [sense]
      match getCWR codewords_rev current_path with
      | some c => (st.1 ++ [c], [])
      | none => (st.1, current_path))
    ([], [])).1

/-- `Huffman::decompress`: always returns `Some(reconstructed_text)`. -/
def Huffman.decompress (deserial : SerialisedHuffmanTree) : Option (List Char) :=
  some (reconstruct_text deserial.tree deserial.encoded_chars_to_senses)

/-- `frequencies[c as usize] += 1` with the array bounds check: Rust
panics (`none`) when the code point is at or beyond the array length. -/
def bumpFreq (frequencies : Frequencies) (n : Nat) : Option Frequencies :=
  if n < frequencies.length then
    some (frequencies.set n (frequencies.getD n 0 + 1))
  else none

/-- The frequency-counting loop of `Huffman::from_file`:
`let mut frequencies = [0; 256]; for c in text.chars() { frequencies[c as usize] += 1; }`. -/
def buildFrequencies (text : List Char) : Option Frequencies :=
  text.foldlM (fun fr c => bumpFreq fr c.toNat) (List.replicate 256 0)

/-- The leaf-seeding loop of `Huffman::from_file`: for each index `i` in
ascending order with a nonzero count, push `Leaf(char::from_u32(i))`.
(`from_u32(i).unwrap()` cannot panic for `i < 256`.) -/
def buildLeaves (frequencies : Frequencies) : List HuffmanTree :=
  (List.range 256).filterMap
    (fun i => if 0 < frequencies.getD i 0
              then some (HuffmanTree.Leaf (Char.ofNat i)) else none)

/-- Pop from the modelled `BinaryHeap`: remove the first element of
minimal weight (the custom `Ord` on `HuffmanFreqTree` reverses the
weight comparison, making the max-heap a min-heap). -/
def popMin (frequencies : Frequencies) : List HuffmanTree → Option (HuffmanTree × List HuffmanTree)
  | [] => none
  | t :: ts =>
      match popMin frequencies ts with
      | none => some (t, [])
      | some (m, rest) =>
          if weight frequencies t ≤ weight frequencies m
          then some (t, ts) else some (m, t :: rest)

/-- The merging loop of `Huffman::from_file` followed by the final
`leaves.pop().unwrap()`: while more than one element remains, pop two
minima `a`, `b` and push `Node((a, b))`; at the end pop the root
(`none` models the panic on an empty queue).  Each pass shrinks the
queue by exactly one element, so the loop runs at most `length - 1`
times; the recursion is bounded by an explicit `fuel` counter that the
wrapper `mergeLoop` sets to the initial queue length, which always
dominates the iteration count (see `mergeLoopFuel_fuel_irrelevant`). -/
def mergeLoopFuel (frequencies : Frequencies) : Nat → List HuffmanTree → Option HuffmanTree
  | fuel + 1, q =>
      if 1 < q.length then
        match popMin frequencies q with
        | none => none
        | some (a, q1) =>
            match popMin frequencies q1 with
            | none => none
            | some (b, q2) =>
                mergeLoopFuel frequencies fuel (q2 ++ [HuffmanTree.Node a b])
      else q.head?
  | 0, q => q.head?

/-- The merging loop on the seeded queue (see `mergeLoopFuel`). -/
def mergeLoop (frequencies : Frequencies) (q : List HuffmanTree) : Option HuffmanTree :=
  mergeLoopFuel frequencies q.length q

/-- Byte length of the text: Rust's `String::len` (`text.len()`), the
UTF-8 length, not the character count. -/
def utf8Len (text : List Char) : Nat :=
  text.foldl (fun n c => n + c.utf8Size) 0

/-- `Huffman::from_file`, with the `std::fs::read_to_string` already
performed (the function is modelled on the text the file contains).
Checks for empty input first, counts frequencies (panicking on code
points ≥ 256), seeds the queue with one leaf per nonzero count, and
merges to a single tree. -/
def Huffman.from_file (text : List Char) : Outcome (Huffman × Nat) :=
  let text_len := utf8Len text
  if text_len = 0 then .err "No content to compress"
  else
    match buildFrequencies text with
    | none => .panicked
    | some frequencies =>
        match mergeLoop frequencies (buildLeaves frequencies) with
        | none => .panicked
        | some tree =>
            .ok ({ freq_tree := { frequencies := frequencies, tree := tree },
                   text := text }, text_len)

/-- `SerialisedHuffmanTree::deserialise`, with the file read and the
`postcard` decoding abstracted: `readResult` is the byte content of the
file (`none` when `std::fs::read` fails) and `decode` stands for
`postcard::from_bytes`.  Both failure paths go through
`unwrap`/`expect`, i.e. they panic; no error value is ever returned. -/
def deserialise (readResult : Option (List Nat))
    (decode : List Nat → Option SerialisedHuffmanTree)
    (original_filepath : List Char) : Outcome (SerialisedHuffmanTree × List Char) :=
  match readResult with
  | none => .panicked
  | some compressed =>
      match decode compressed with
      | none => .panicked
      | some deserial => .ok (deserial, original_filepath)

/-- Whole-pipeline round trip on a text: build the tree (`from_file`),
`compress`, then `decompress`.  `none` when any modelled panic occurs or
the input is rejected. -/
def roundTrip (text : List Char) : Option (List Char) :=
  match Huffman.from_file text with
  | .ok (huf, _) =>
      match huf.compress with
      | some serial => Huffman.decompress serial
      | none => none
  | _ => none

/-- The tree produced by `from_file`, for stating concrete facts. -/
def treeOfText (text : List Char) : Option HuffmanTree :=
  match Huffman.from_file text with
  | .ok (huf, _) => some huf.freq_tree.tree
  | _ => none

/-- The container produced by `from_file` then `compress`. -/
def compressedOf (text : List Char) : Option SerialisedHuffmanTree :=
  match Huffman.from_file text with
  | .ok (huf, _) => huf.compress
  | _ => none

/-- The codeword of a character, after building the tree from a text. -/
def codeLenOfText (text : List Char) (c : Char) : Option Nat :=
  match Huffman.from_file text with
  | .ok (huf, _) => (getCW (fill_codewords huf.freq_tree.tree) c).map List.length
  | _ => none

/-- The recorded frequency of a character after building from a text. -/
def freqOfText (text : List Char) (c : Char) : Option Nat :=
  match Huffman.from_file text with
  | .ok (huf, _) => some (huf.freq_tree.frequencies.getD c.toNat 0)
  | _ => none

/-- Descend the tree along a path of senses: `Left` goes to the first
child, `Right` to the second; descending below a leaf fails. -/
def follow : HuffmanTree → Path → Option HuffmanTree
  | t, [] => some t
  | .Leaf _, _ :: _ => none
  | .Node s _, Sense.Left :: p => follow s p
  | .Node _ t, Sense.Right :: p => follow t p

/-- `occAt t c p`: the tree has a leaf labelled `c` at the end of path `p`. -/
def occAt (t : HuffmanTree) (c : Char) (p : Path) : Prop :=
  follow t p = some (HuffmanTree.Leaf c)

/-- `p` is a (not necessarily proper) initial segment of `q`. -/
def PrefixOf (p q : Path) : Prop := ∃ r, p ++ r = q

/-- The frequency-table entry for a character (0 beyond the array). -/
def freqOf (frequencies : Frequencies) (c : Char) : Nat :=
  frequencies.getD c.toNat 0

/-- Depth monotonicity between two trees: any occurrence of a strictly
more frequent character in the first tree is at most as deep as any
occurrence of the less frequent one in the second. -/
def CrossDepth (frequencies : Frequencies) (t t' : HuffmanTree) : Prop :=
  ∀ a b pa pb, occAt t a pa → occAt t' b pb →
    freqOf frequencies b < freqOf frequencies a → pa.length ≤ pb.length

/-- Chain domination between two trees: for occurrences of a strictly
more frequent `a` in `t` and a less frequent `b` in `t'`, the ancestor
subtree of `b` at any height above its leaf weighs strictly less than
the ancestor subtree of `a` at the same height. -/
def CrossChain (frequencies : Frequencies) (t t' : HuffmanTree) : Prop :=
  ∀ a b p1 p2 q1 q2 sa sb,
    follow t p1 = some sa → occAt sa a p2 →
    follow t' q1 = some sb → occAt sb b q2 →
    p2.length = q2.length →
    freqOf frequencies b < freqOf frequencies a →
    weight frequencies sb < weight frequencies sa

/-- Depth monotonicity inside one tree. -/
def WithinMono (frequencies : Frequencies) (t : HuffmanTree) : Prop :=
  CrossDepth frequencies t t

/-- The symmetric pairwise separation relation maintained between any
two distinct elements of the merge queue. -/
def Sep (frequencies : Frequencies) (t t' : HuffmanTree) : Prop :=
  CrossDepth frequencies t t' ∧ CrossDepth frequencies t' t ∧
  CrossChain frequencies t t' ∧ CrossChain frequencies t' t

/-- Global bound: every proper subtree of any queue element weighs at
most as much as every queue element (popped weights only grow). -/
def SubBound (frequencies : Frequencies) (q : List HuffmanTree) : Prop :=
  ∀ t ∈ q, ∀ p s, p ≠ [] → follow t p = some s →
    ∀ t' ∈ q, weight frequencies s ≤ weight frequencies t'

/-- The full queue invariant of the merging loop. -/
structure Inv (frequencies : Frequencies) (q : List HuffmanTree) : Prop where
  pair : q.Pairwise (Sep frequencies)
  within : ∀ t ∈ q, WithinMono frequencies t
  sub : SubBound frequencies q
  pos : ∀ t ∈ q, 1 ≤ weight frequencies t

theorem popMin_none {frequencies : Frequencies} :
    ∀ {q : List HuffmanTree}, popMin frequencies q = none → q = [] := by
  intro q h
  cases q with
  | nil => rfl
  | cons t ts =>
      rw [popMin] at h
      cases hp : popMin frequencies ts with
      | none => rw [hp] at h; exact absurd h (by simp)
      | some p =>
          rw [hp] at h
          by_cases hle : weight frequencies t ≤ weight frequencies p.1 <;>
            simp [hle] at h

theorem popMin_perm {frequencies : Frequencies} :
    ∀ {q : List HuffmanTree} {t rest}, popMin frequencies q = some (t, rest) →
      q.Perm (t :: rest) := by
  intro q
  induction q with
  | nil => intro t rest h; rw [popMin] at h; exact absurd h (by simp)
  | cons a ts ih =>
      intro t rest h
      rw [popMin] at h
      cases hp : popMin frequencies ts with
      | none =>
          rw [hp] at h
          rcases popMin_none hp
          simp only [Option.some.injEq, Prod.mk.injEq] at h
          rw [← h.1, ← h.2]
      | some p =>
          rw [hp] at h
          obtain ⟨m, r⟩ := p
          by_cases hle : weight frequencies a ≤ weight frequencies m <;>
            simp only [hle, Option.some.injEq, Prod.mk.injEq, reduceIte] at h
          · rw [← h.1, ← h.2]
          · rw [← h.1, ← h.2]
            exact ((ih hp).cons a).trans (List.Perm.swap _ _ _)

theorem popMin_min {frequencies : Frequencies} :
    ∀ {q : List HuffmanTree} {t rest}, popMin frequencies q = some (t, rest) →
      ∀ u ∈ q, weight frequencies t ≤ weight frequencies u := by
  intro q
  induction q with
  | nil => intro t rest h; rw [popMin] at h; exact absurd h (by simp)
  | cons a ts ih =>
      intro t rest h u hu
      rw [popMin] at h
      cases hp : popMin frequencies ts with
      | none =>
          rw [hp] at h
          rcases popMin_none hp
          simp only [Option.some.injEq, Prod.mk.injEq] at h
          rcases List.mem_cons.1 hu with h1 | h1
          · rw [← h.1, h1]
          · exact absurd h1 (by simp)
      | some p =>
          rw [hp] at h
          obtain ⟨m, r⟩ := p
          by_cases hle : weight frequencies a ≤ weight frequencies m <;>
            simp only [hle, Option.some.injEq, Prod.mk.injEq, reduceIte] at h <;>
            rcases List.mem_cons.1 hu with h1 | h1
          · rw [← h.1, h1]
          · rw [← h.1]
            exact le_trans hle (ih hp u h1)
          · rw [← h.1, h1]
            exact le_of_lt (lt_of_not_le hle)
          · rw [← h.1]
            exact ih hp u h1

theorem follow_append (t : HuffmanTree) (p q : Path) :
    follow t (p ++ q) = (follow t p).bind (fun s => follow s q) := by
  induction p generalizing t with
  | nil => simp [follow]
  | cons s p ih =>
      cases t with
      | Leaf c => cases s <;> simp [follow]
      | Node l r => cases s <;> simpa [follow] using ih _

theorem occAt_leaf {c a : Char} {p : Path} :
    occAt (HuffmanTree.Leaf c) a p ↔ a = c ∧ p = [] := by
  constructor
  · intro h
    cases p with
    | nil => simpa [occAt, follow, eq_comm] using h
    | cons s p => simp [occAt, follow] at h
  · rintro ⟨rfl, rfl⟩
    simp [occAt, follow]

theorem occAt_node {s t : HuffmanTree} {a : Char} {p : Path} :
    occAt (HuffmanTree.Node s t) a p ↔
      (∃ p', p = Sense.Left :: p' ∧ occAt s a p') ∨
      (∃ p', p = Sense.Right :: p' ∧ occAt t a p') := by
  constructor
  · intro h
    cases p with
    | nil => simp [occAt, follow] at h
    | cons d p =>
        cases d
        · exact Or.inl ⟨p, rfl, h⟩
        · exact Or.inr ⟨p, rfl, h⟩
  · rintro (⟨p', rfl, h⟩ | ⟨p', rfl, h⟩) <;> simpa [occAt, follow] using h

theorem weight_le_of_follow {frequencies : Frequencies} :
    ∀ {t : HuffmanTree} {p : Path} {s : HuffmanTree}, follow t p = some s →
      weight frequencies s ≤ weight frequencies t := by
  intro t
  induction t with
  | Leaf c =>
      intro p s h
      cases p with
      | nil => simp only [follow, Option.some.injEq] at h; rw [← h]
      | cons d p => simp [follow] at h
  | Node l r ihl ihr =>
      intro p s h
      cases p with
      | nil =>
          simp only [follow, Option.some.injEq] at h
          rw [← h]
      | cons d p =>
          cases d
          · exact le_trans (ihl h) (Nat.le_add_right _ _)
          · exact le_trans (ihr h) (Nat.le_add_left _ _)

theorem freq_le_weight {frequencies : Frequencies} {t : HuffmanTree} {c : Char} {p : Path}
    (h : occAt t c p) : freqOf frequencies c ≤ weight frequencies t :=
  @weight_le_of_follow frequencies t p (HuffmanTree.Leaf c) h

theorem mem_fill_codewords_with_acc :
    ∀ (t : HuffmanTree) (acc : Codewords) (pre : Path) (e : Char × Path),
      e ∈ fill_codewords_with_acc t acc pre ↔
        e ∈ acc ∨ ∃ p', occAt t e.1 p' ∧ e.2 = pre ++ p' := by
  intro t
  induction t with
  | Leaf c =>
      intro acc pre e
      simp only [fill_codewords_with_acc, List.mem_cons, occAt_leaf]
      constructor
      · rintro (rfl | h)
        · exact Or.inr ⟨[], ⟨rfl, rfl⟩, by simp⟩
        · exact Or.inl h
      · rintro (h | ⟨p', ⟨rfl, rfl⟩, h2⟩)
        · exact Or.inr h
        · left
          obtain ⟨e1, e2⟩ := e
          simp only at h2 ⊢
          rw [h2]; simp
  | Node s t ihs iht =>
      intro acc pre e
      rw [fill_codewords_with_acc, iht, ihs]
      constructor
      · rintro ((h | ⟨p', hocc, hp⟩) | ⟨p', hocc, hp⟩)
        · exact Or.inl h
        · refine Or.inr ⟨Sense.Left :: p', ?_, by simpa using hp⟩
          exact occAt_node.2 (Or.inl ⟨p', rfl, hocc⟩)
        · refine Or.inr ⟨Sense.Right :: p', ?_, by simpa using hp⟩
          exact occAt_node.2 (Or.inr ⟨p', rfl, hocc⟩)
      · rintro (h | ⟨p', hocc, hp⟩)
        · exact Or.inl (Or.inl h)
        · rcases occAt_node.1 hocc with ⟨p'', rfl, h2⟩ | ⟨p'', rfl, h2⟩
          · exact Or.inl (Or.inr ⟨p'', h2, by simpa using hp⟩)
          · exact Or.inr ⟨p'', h2, by simpa using hp⟩

theorem getCW_occAt {t : HuffmanTree} {c : Char} {p : Path}
    (h : getCW (fill_codewords t) c = some p) : occAt t c p := by
  unfold getCW at h
  cases hf : (fill_codewords t).find? (fun e => e.1 = c) with
  | none => rw [hf] at h; exact absurd h (by simp)
  | some e =>
      rw [hf] at h
      simp only [Option.map_some', Option.some.injEq] at h
      have hmem := List.mem_of_find?_eq_some hf
      have heq : e.1 = c := by
        have := List.find?_some hf
        exact of_decide_eq_true this
      rw [fill_codewords] at hmem
      rcases (mem_fill_codewords_with_acc _ _ _ _).1 hmem with hin | ⟨p', hocc, hp⟩
      · exact absurd hin (by simp)
      · simp only [List.nil_append] at hp
        rw [← h, hp, ← heq]
        exact hocc

theorem occAt_not_prefix {t : HuffmanTree} {a b : Char} {pa pb : Path}
    (ha : occAt t a pa) (hb : occAt t b pb) (hab : a ≠ b) : ¬ PrefixOf pa pb := by
  rintro ⟨r, hr⟩
  rw [← hr] at hb
  unfold occAt at ha hb
  rw [follow_append, ha] at hb
  simp only [Option.some_bind] at hb
  cases r with
  | nil =>
      simp only [follow, Option.some.injEq, HuffmanTree.Leaf.injEq] at hb
      exact hab hb
  | cons d r => simp [follow] at hb

/-- C1.  The claim states `decompress(compress(text)) == text` for every
non-empty text over the supported alphabet.  The code violates it: for
the two-distinct-symbol text "ab" the reconstructed text is "aba" — the
decoder's loop guard `i > senses_count` (instead of `>=`) reads one bit
beyond the recorded unpadded count, and the extra padding `Left` bit
decodes to a spurious extra symbol whenever the root's left child is a
leaf.  This theorem evaluates the embedded pipeline at that input. -/
theorem c1_round_trip_fails :
    roundTrip ['a', 'b'] = some ['a', 'b', 'a'] ∧ ['a', 'b', 'a'] ≠ ['a', 'b'] :=
  ⟨by decide, by decide⟩

/-- C2.  For the single-distinct-symbol text "aaaa" the tree builder
does produce a single-leaf tree (first conjunct), as the claim says, but
the degenerate codeword is the empty path, which the decode loop can
never match (it only checks after pushing a sense), so the round trip
returns "" instead of "aaaa": the "usable codeword / round trip
reproduces the text" part of the claim fails on the code. -/
theorem c2_single_symbol_fails :
    treeOfText ['a', 'a', 'a', 'a'] = some (HuffmanTree.Leaf 'a') ∧
    roundTrip ['a', 'a', 'a', 'a'] = some [] ∧
    ([] : List Char) ≠ ['a', 'a', 'a', 'a'] :=
  ⟨by decide, by decide, by decide⟩

/-- C3 counterexample.  Decode input: a tree with codewords
`a ↦ [Left]`, `b ↦ [Right, Left]`, `c ↦ [Right, Right]`; recorded
unpadded bit count 1; one packed byte `0b10000000`.  The bit
sequence truncated to 1 bit is `[Right]`, which is not a complete
codeword (second conjunct: no reverse-table entry), so per the claim
decompress must fail with `MalformedStream`; instead the code returns
successfully (it even reads a second, padding bit and decodes "b"). -/
theorem c3_no_malformed_stream_failure :
    Huffman.decompress
      ⟨HuffmanTree.Node (.Leaf 'a') (.Node (.Leaf 'b') (.Leaf 'c')), 1, [128]⟩ =
      some ['b'] ∧
    getCWR (fill_codewords_rev
      (HuffmanTree.Node (.Leaf 'a') (.Node (.Leaf 'b') (.Leaf 'c'))))
      [Sense.Right] = none :=
  ⟨by decide, by decide⟩

/-- C3 amended: `decompress` never reports any failure at all — it
always returns `Some` text; bits that do not complete a codeword are
silently discarded (the leftover `current_path` of `reconstruct_text`
is dropped), so a stream that does not decompose into complete
codewords yields a silently truncated text rather than a
`MalformedStream` error. -/
theorem c3_decompress_always_returns (deserial : SerialisedHuffmanTree) :
    (Huffman.decompress deserial).isSome = true := rfl

/-- C5.  A zero-byte-length text makes `from_file` return the
`EmptyInput` error (`Err("No content to compress")`) immediately: the
check precedes the frequency loop, the queue seeding and the merging,
so no tree is built and nothing is serialised. -/
theorem c5_empty_input_rejected (text : List Char) (h : utf8Len text = 0) :
    Huffman.from_file text = .err "No content to compress" := by
  unfold Huffman.from_file
  simp [h]

theorem c5_empty_input_rejected_witness :
    utf8Len [] = 0 ∧
    Huffman.from_file [] = .err "No content to compress" :=
  ⟨rfl, c5_empty_input_rejected [] rfl⟩

/-- C6.  Prefix-freedom of the codeword table of any tree: two distinct
characters that both have codewords in the table built by one full
traversal (`fill_codewords`) have codewords neither of which is an
initial segment of the other.  (Codewords are root-to-leaf paths, and a
leaf has no descendants, so one leaf path cannot continue into
another.) -/
theorem c6_codewords_prefix_free (t : HuffmanTree) (a b : Char) (pa pb : Path)
    (ha : getCW (fill_codewords t) a = some pa)
    (hb : getCW (fill_codewords t) b = some pb)
    (hab : a ≠ b) : ¬ PrefixOf pa pb :=
  occAt_not_prefix (getCW_occAt ha) (getCW_occAt hb) hab

theorem c6_codewords_prefix_free_witness :
    getCW (fill_codewords (HuffmanTree.Node (.Leaf 'a') (.Leaf 'b'))) 'a' =
      some [Sense.Left] ∧
    getCW (fill_codewords (HuffmanTree.Node (.Leaf 'a') (.Leaf 'b'))) 'b' =
      some [Sense.Right] ∧
    ('a' : Char) ≠ 'b' ∧
    ¬ PrefixOf [Sense.Left] [Sense.Right] :=
  ⟨by decide, by decide, by decide,
   c6_codewords_prefix_free (HuffmanTree.Node (.Leaf 'a') (.Leaf 'b')) 'a' 'b'
     [Sense.Left] [Sense.Right] (by decide) (by decide) (by decide)⟩

/-- C9 counterexample.  The claim says both failure cases return an
error to the caller.  In the code `std::fs::read(..).unwrap()` and
`postcard::from_bytes(..).expect(..)` panic instead: with an unreadable
file (read result `none`) or with bytes the decoder rejects, the
outcome is a panic, not an `err` return — `deserialise` has no error
channel at all (its Rust return type is a bare tuple). -/
theorem c9_deserialise_panics :
    deserialise none (fun _ => none) ['x'] = .panicked ∧
    deserialise (some [0]) (fun _ => none) ['x'] = .panicked :=
  ⟨rfl, rfl⟩

/-- C9 amended: when the file cannot be read, or when the read bytes do
not decode into the expected structure, `deserialise` panics
(`unwrap` / `expect`); it never returns an error value to the caller
(and in particular never succeeds) in those cases. -/
theorem c9_deserialise_failure_modes
    (decode : List Nat → Option SerialisedHuffmanTree)
    (path : List Char) (bytes : List Nat) (h : decode bytes = none) :
    deserialise none decode path = .panicked ∧
    deserialise (some bytes) decode path = .panicked := by
  exact ⟨rfl, by simp [deserialise, h]⟩

theorem popMin_isSome {frequencies : Frequencies} {q : List HuffmanTree}
    (h : q ≠ []) : ∃ a q1, popMin frequencies q = some (a, q1) := by
  cases hp : popMin frequencies q with
  | none => exact absurd (popMin_none hp) h
  | some p =>
      obtain ⟨a, q1⟩ := p
      exact ⟨a, q1, rfl⟩

theorem mergeLoopFuel_step {frequencies : Frequencies} {q q1 q2 : List HuffmanTree}
    {a b : HuffmanTree} {n : Nat} (hq : 1 < q.length)
    (hp : popMin frequencies q = some (a, q1))
    (hp2 : popMin frequencies q1 = some (b, q2)) :
    mergeLoopFuel frequencies (n + 1) q =
      mergeLoopFuel frequencies n (q2 ++ [HuffmanTree.Node a b]) := by
  rw [mergeLoopFuel, if_pos hq, hp]
  show (match popMin frequencies q1 with
        | none => none
        | some (b, q2) =>
            mergeLoopFuel frequencies n (q2 ++ [HuffmanTree.Node a b])) = _
  rw [hp2]

theorem mergeLoopFuel_stop {frequencies : Frequencies} {q : List HuffmanTree}
    {n : Nat} (hq : ¬ 1 < q.length) :
    mergeLoopFuel frequencies (n + 1) q = q.head? := by
  rw [mergeLoopFuel, if_neg hq]

theorem mergeLoopFuel_fuel_irrelevant {frequencies : Frequencies} :
    ∀ {fuel fuel' : Nat} {q : List HuffmanTree},
      q.length ≤ fuel → q.length ≤ fuel' →
      mergeLoopFuel frequencies fuel q = mergeLoopFuel frequencies fuel' q := by
  intro fuel
  induction fuel with
  | zero =>
      intro fuel' q h h'
      have hq : q = [] := List.length_eq_zero.1 (Nat.le_zero.1 h)
      cases fuel' <;> rw [hq]
      rfl
  | succ n ih =>
      intro fuel' q h h'
      cases fuel' with
      | zero =>
          have hq : q = [] := List.length_eq_zero.1 (Nat.le_zero.1 h')
          rw [hq]
          rfl
      | succ m =>
          by_cases hq : 1 < q.length
          · have hne : q ≠ [] := by intro he; rw [he] at hq; simp at hq
            obtain ⟨a, q1, hp⟩ := @popMin_isSome frequencies q hne
            have e1 : q.length = q1.length + 1 := by
              simpa using (popMin_perm hp).length_eq
            have hne1 : q1 ≠ [] := by
              intro he; rw [he] at e1; simp at e1; omega
            obtain ⟨b, q2, hp2⟩ := @popMin_isSome frequencies q1 hne1
            have e2 : q1.length = q2.length + 1 := by
              simpa using (popMin_perm hp2).length_eq
            rw [mergeLoopFuel_step hq hp hp2, mergeLoopFuel_step hq hp hp2]
            have hlen : (q2 ++ [HuffmanTree.Node a b]).length + 1 = q.length := by
              simp only [List.length_append, List.length_cons, List.length_nil]
              omega
            exact ih (by omega) (by omega)
          · rw [mergeLoopFuel_stop hq, mergeLoopFuel_stop hq]

theorem sum_set_getD :
    ∀ (l : List Nat) (n : Nat), n < l.length →
      (l.set n (l.getD n 0 + 1)).sum = l.sum + 1 := by
  intro l
  induction l with
  | nil => intro n h; simp at h
  | cons x xs ih =>
      intro n h
      cases n with
      | zero => simp [List.getD]; omega
      | succ m =>
          simp only [List.length_cons, Nat.succ_lt_succ_iff] at h
          have := ih m h
          simp only [List.getD_cons_succ, List.set_cons_succ, List.sum_cons]
          omega

theorem bumpFreq_some {fr fr' : Frequencies} {n : Nat}
    (h : bumpFreq fr n = some fr') :
    fr'.length = fr.length ∧ fr'.sum = fr.sum + 1 := by
  unfold bumpFreq at h
  by_cases hn : n < fr.length
  · rw [if_pos hn] at h
    simp only [Option.some.injEq] at h
    rw [← h]
    exact ⟨by simp, sum_set_getD fr n hn⟩
  · rw [if_neg hn] at h
    exact absurd h (by simp)

theorem freqFold_spec :
    ∀ (text : List Char) (fr0 fr : Frequencies),
      List.foldlM (fun fr c => bumpFreq fr c.toNat) fr0 text = some fr →
      fr.length = fr0.length ∧ fr.sum = fr0.sum + text.length := by
  intro text
  induction text with
  | nil =>
      intro fr0 fr h
      simp only [List.foldlM_nil, Option.pure_def, Option.some.injEq] at h
      rw [← h]; simp
  | cons c cs ih =>
      intro fr0 fr h
      simp only [List.foldlM_cons] at h
      cases hb : bumpFreq fr0 c.toNat with
      | none => rw [hb] at h; exact absurd h (by simp)
      | some fr1 =>
          rw [hb] at h
          have h1 := bumpFreq_some hb
          have h2 := ih fr1 fr h
          refine ⟨h2.1.trans h1.1, ?_⟩
          rw [h2.2, h1.2]
          simp only [List.length_cons]
          omega

theorem buildFrequencies_spec {text : List Char} {frequencies : Frequencies}
    (h : buildFrequencies text = some frequencies) :
    frequencies.length = 256 ∧ frequencies.sum = text.length := by
  have := freqFold_spec text _ _ h
  simpa using this

theorem char_toNat_ofNat {i : Nat} (h : i < 256) : (Char.ofNat i).toNat = i := by
  have hv : Nat.isValidChar i := Or.inl (by omega)
  simp [Char.ofNat, hv, Char.toNat, Char.ofNatAux]
  rfl

theorem sum_take_getD :
    ∀ (l : List Nat) (n : Nat), n < l.length →
      (l.take (n + 1)).sum = (l.take n).sum + l.getD n 0 := by
  intro l
  induction l with
  | nil => intro n h; simp at h
  | cons x xs ih =>
      intro n h
      cases n with
      | zero => simp [List.getD]
      | succ m =>
          simp only [List.length_cons, Nat.succ_lt_succ_iff] at h
          have := ih m h
          simp only [List.take_succ_cons, List.sum_cons, List.getD_cons_succ]
          omega

theorem buildLeaves_weight_sum {frequencies : Frequencies}
    (hlen : frequencies.length = 256) :
    ((buildLeaves frequencies).map (weight frequencies)).sum = frequencies.sum := by
  have aux : ∀ n, n ≤ 256 →
      (((List.range n).filterMap
        (fun i => if 0 < frequencies.getD i 0
                  then some (HuffmanTree.Leaf (Char.ofNat i)) else none)).map
        (weight frequencies)).sum = (frequencies.take n).sum := by
    intro n
    induction n with
    | zero => intro _; simp
    | succ m ih =>
        intro hm
        have hm' : m ≤ 256 := by omega
        have hmlt : m < frequencies.length := by omega
        rw [List.range_succ, List.filterMap_append, List.map_append, List.sum_append,
          ih hm', sum_take_getD _ _ hmlt]
        congr 1
        by_cases hpos : 0 < frequencies.getD m 0
        · have hw : weight frequencies (HuffmanTree.Leaf (Char.ofNat m)) =
              frequencies.getD m 0 := by
            show frequencies.getD (Char.ofNat m).toNat 0 = _
            rw [char_toNat_ofNat (by omega)]
          rw [show (List.filterMap
              (fun i => if 0 < frequencies.getD i 0
                        then some (HuffmanTree.Leaf (Char.ofNat i)) else none) [m]) =
              [HuffmanTree.Leaf (Char.ofNat m)] from by
            simp only [List.filterMap_cons, List.filterMap_nil]
            rw [if_pos hpos]]
          simp [hw]
        · rw [show (List.filterMap
              (fun i => if 0 < frequencies.getD i 0
                        then some (HuffmanTree.Leaf (Char.ofNat i)) else none) [m]) =
              [] from by
            simp only [List.filterMap_cons, List.filterMap_nil]
            rw [if_neg hpos]]
          simp only [Nat.not_lt, Nat.le_zero] at hpos
          simp only [List.map_nil, List.sum_nil]
          exact hpos.symm
  have := aux 256 le_rfl
  rw [buildLeaves, this, ← hlen, List.take_length]

theorem mergeLoopFuel_weight {frequencies : Frequencies} :
    ∀ (fuel : Nat) (q : List HuffmanTree) (t : HuffmanTree),
      q.length ≤ fuel → mergeLoopFuel frequencies fuel q = some t →
      weight frequencies t = (q.map (weight frequencies)).sum := by
  intro fuel
  induction fuel with
  | zero =>
      intro q t h hm
      have : q = [] := List.length_eq_zero.1 (Nat.le_zero.1 h)
      rw [this] at hm
      exact absurd hm (by simp [mergeLoopFuel])
  | succ n ih =>
      intro q t h hm
      by_cases hq : 1 < q.length
      · have hne : q ≠ [] := by intro he; rw [he] at hq; simp at hq
        obtain ⟨a, q1, hp⟩ := @popMin_isSome frequencies q hne
        have e1 : q.length = q1.length + 1 := by
          simpa using (popMin_perm hp).length_eq
        have hne1 : q1 ≠ [] := by
          intro he; rw [he] at e1; simp at e1; omega
        obtain ⟨b, q2, hp2⟩ := @popMin_isSome frequencies q1 hne1
        have e2 : q1.length = q2.length + 1 := by
          simpa using (popMin_perm hp2).length_eq
        rw [mergeLoopFuel_step hq hp hp2] at hm
        have := ih (q2 ++ [HuffmanTree.Node a b]) t
          (by simp only [List.length_append, List.length_cons, List.length_nil]; omega)
          hm
        rw [this]
        have s1 := ((popMin_perm hp).map (weight frequencies)).sum_eq
        have s2 := ((popMin_perm hp2).map (weight frequencies)).sum_eq
        simp only [List.map_cons, List.sum_cons] at s1 s2
        simp only [List.map_append, List.sum_append, List.map_cons, List.map_nil,
          List.sum_cons, List.sum_nil]
        rw [s1, s2]
        show _ = weight frequencies a +
          (weight frequencies b + (q2.map (weight frequencies)).sum)
        simp only [weight]
        omega
      · rw [mergeLoopFuel_stop hq] at hm
        cases q with
        | nil => exact absurd hm (by simp)
        | cons x xs =>
            cases xs with
            | nil =>
                simp only [List.head?_cons, Option.some.injEq] at hm
                rw [← hm]
                simp
            | cons y ys => simp [List.length_cons] at hq

theorem from_file_ok {text : List Char} {huf : Huffman} {n : Nat}
    (h : Huffman.from_file text = .ok (huf, n)) :
    buildFrequencies text = some huf.freq_tree.frequencies ∧
    mergeLoop huf.freq_tree.frequencies (buildLeaves huf.freq_tree.frequencies) =
      some huf.freq_tree.tree ∧
    huf.text = text ∧ n = utf8Len text := by
  simp only [Huffman.from_file] at h
  split at h
  · exact absurd h (by simp)
  · split at h
    next hb => exact absurd h (by simp)
    next freqs hb =>
      split at h
      next hm => exact absurd h (by simp)
      next tree hm =>
        simp only [Outcome.ok.injEq, Prod.mk.injEq] at h
        obtain ⟨h1, h2⟩ := h
        rw [← h1]
        exact ⟨hb, hm, rfl, h2.symm⟩

/-- C7.  Weight conservation: whenever `from_file` succeeds, the weight
of the root of the built tree (the sum, over its leaves, of the
recorded frequencies) equals the number of symbols of the source text.
The merge loop preserves the total queue weight (popping two elements
and pushing their `Node` keeps the sum), the seeded queue's total
weight is the sum of the nonzero frequency entries, and the frequency
table sums to the character count of the text. -/
theorem c7_weight_conservation (text : List Char) (huf : Huffman) (n : Nat)
    (h : Huffman.from_file text = .ok (huf, n)) :
    weight huf.freq_tree.frequencies huf.freq_tree.tree = text.length := by
  obtain ⟨hb, hm, -, -⟩ := from_file_ok h
  have hspec := buildFrequencies_spec hb
  rw [mergeLoop] at hm
  have hsum := mergeLoopFuel_weight _ _ _ le_rfl hm
  rw [hsum, buildLeaves_weight_sum hspec.1, hspec.2]

theorem c7_weight_conservation_witness :
    Huffman.from_file ['a', 'b'] =
      .ok (⟨⟨((List.replicate 256 0).set 97 1).set 98 1,
             .Node (.Leaf 'a') (.Leaf 'b')⟩, ['a', 'b']⟩, 2) ∧
    weight (((List.replicate 256 0).set 97 1).set 98 1)
      (.Node (.Leaf 'a') (.Leaf 'b')) = 2 :=
  ⟨by decide,
   c7_weight_conservation ['a', 'b']
     ⟨⟨((List.replicate 256 0).set 97 1).set 98 1,
       .Node (.Leaf 'a') (.Leaf 'b')⟩, ['a', 'b']⟩ 2 (by decide)⟩

theorem freqFold_isSome :
    ∀ (text : List Char) (fr0 : Frequencies), fr0.length = 256 →
      (∀ c ∈ text, c.toNat ≤ 255) →
      ∃ fr, List.foldlM (fun fr c => bumpFreq fr c.toNat) fr0 text = some fr := by
  intro text
  induction text with
  | nil => intro fr0 _ _; exact ⟨fr0, rfl⟩
  | cons c cs ih =>
      intro fr0 hlen hc
      have hcn : c.toNat < fr0.length := by
        have := hc c (by simp)
        omega
      have hb : bumpFreq fr0 c.toNat =
          some (fr0.set c.toNat (fr0.getD c.toNat 0 + 1)) := by
        rw [bumpFreq, if_pos hcn]
      obtain ⟨fr, hfr⟩ := ih (fr0.set c.toNat (fr0.getD c.toNat 0 + 1))
        (by simp [hlen]) (fun d hd => hc d (by simp [hd]))
      refine ⟨fr, ?_⟩
      simp only [List.foldlM_cons]
      rw [hb]
      exact hfr

theorem freqFold_none_of_big :
    ∀ (text : List Char) (fr0 : Frequencies) (c : Char), fr0.length = 256 →
      c ∈ text → 256 ≤ c.toNat →
      List.foldlM (fun fr c => bumpFreq fr c.toNat) fr0 text = none := by
  intro text
  induction text with
  | nil => intro fr0 c _ hc _; simp at hc
  | cons d cs ih =>
      intro fr0 c hlen hc hbig
      simp only [List.foldlM_cons]
      cases hb : bumpFreq fr0 d.toNat with
      | none => rfl
      | some fr1 =>
          have hlen1 : fr1.length = 256 := (bumpFreq_some hb).1.trans hlen
          rcases List.mem_cons.1 hc with rfl | hmem
          · exfalso
            rw [bumpFreq] at hb
            rw [if_neg (by omega)] at hb
            exact absurd hb (by simp)
          · exact ih fr1 c hlen1 hmem hbig

theorem weightChecked_isSome :
    ∀ (t : HuffmanTree) (frequencies : Frequencies), frequencies.length = 256 →
      (∀ c p, occAt t c p → c.toNat ≤ 255) →
      (weightChecked frequencies t).isSome = true := by
  intro t
  induction t with
  | Leaf c =>
      intro frequencies hlen hc
      have hcn : c.toNat < frequencies.length := by
        have := hc c [] (by rw [occAt, follow])
        omega
      rw [weightChecked]
      cases hg : frequencies.get? c.toNat with
      | none =>
          have := List.get?_eq_none.1 hg
          omega
      | some v => rfl
  | Node s t ihs iht =>
      intro frequencies hlen hc
      have hs := ihs frequencies hlen
        (fun c p hp => hc c (Sense.Left :: p) (occAt_node.2 (Or.inl ⟨p, rfl, hp⟩)))
      have ht := iht frequencies hlen
        (fun c p hp => hc c (Sense.Right :: p) (occAt_node.2 (Or.inr ⟨p, rfl, hp⟩)))
      cases hws : weightChecked frequencies s with
      | none => rw [hws] at hs; exact absurd hs (by simp)
      | some a =>
          cases hwt : weightChecked frequencies t with
          | none => rw [hwt] at ht; exact absurd ht (by simp)
          | some b =>
              rw [weightChecked, hws, hwt]
              rfl

/-- C10.  The 256-slot frequency array is indexed by the character's
code point both when counting (`frequencies[c as usize] += 1`) and in
`HuffmanTree::weight`.  For texts (resp. trees) whose characters all
have code points at most 255 every access is in bounds (the checked
models succeed), and the precondition is necessary: a character with
code point 256 or more makes frequency counting hit an out-of-bounds
index (the checked model fails), and the raw index falls outside any
256-element array. -/
theorem c10_frequency_indexing (text : List Char) (h : ∀ c ∈ text, c.toNat ≤ 255) :
    (buildFrequencies text).isSome = true ∧
    (∀ (t : HuffmanTree) (frequencies : Frequencies), frequencies.length = 256 →
      (∀ c p, occAt t c p → c.toNat ≤ 255) →
      (weightChecked frequencies t).isSome = true) ∧
    (∀ (text' : List Char) (c : Char), c ∈ text' → 256 ≤ c.toNat →
      buildFrequencies text' = none) ∧
    (∀ (frequencies : Frequencies) (c : Char), frequencies.length = 256 →
      256 ≤ c.toNat → frequencies.get? c.toNat = none) := by
  refine ⟨?_, weightChecked_isSome, ?_, ?_⟩
  · obtain ⟨fr, hfr⟩ := freqFold_isSome text (List.replicate 256 0) (by simp) h
    rw [buildFrequencies, hfr]
    rfl
  · intro text' c hmem hbig
    exact freqFold_none_of_big text' (List.replicate 256 0) c (by simp) hmem hbig
  · intro frequencies c hlen hbig
    exact List.get?_eq_none.2 (by omega)

theorem c10_frequency_indexing_witness :
    (∀ c ∈ ['a'], c.toNat ≤ 255) ∧
    (buildFrequencies ['a']).isSome = true ∧
    (weightChecked (List.replicate 256 0) (.Leaf 'a')).isSome = true ∧
    buildFrequencies ['a', Char.ofNat 256] = none ∧
    (List.replicate 256 0 : Frequencies).get? (Char.ofNat 256).toNat = none := by
  have hmain := c10_frequency_indexing ['a'] (by decide)
  refine ⟨by decide, hmain.1, ?_, ?_, ?_⟩
  · exact hmain.2.1 (.Leaf 'a') (List.replicate 256 0) (by simp)
      (fun c p hp => by
        rcases occAt_leaf.1 hp with ⟨rfl, -⟩
        decide)
  · exact hmain.2.2.1 ['a', Char.ofNat 256] (Char.ofNat 256) (by decide) (by decide)
  · exact hmain.2.2.2 (List.replicate 256 0) (Char.ofNat 256) (by simp) (by decide)

theorem packBytes_length : ∀ l : List Sense, (packBytes l).length = l.length / 8 := by
  intro l
  induction l using packBytes.induct with
  | case1 s0 s1 s2 s3 s4 s5 s6 s7 rest ih =>
      simp only [packBytes, List.length_cons, ih]
      omega
  | case2 t h =>
      rcases t with _ | ⟨a, _ | ⟨b, _ | ⟨c, _ | ⟨d, _ | ⟨e, _ | ⟨f, _ | ⟨g, _ | ⟨i, rest⟩⟩⟩⟩⟩⟩⟩⟩
      · rfl
      · simp [packBytes]
      · simp [packBytes]
      · simp [packBytes]
      · simp [packBytes]
      · simp [packBytes]
      · simp [packBytes]
      · simp [packBytes]
      · exact (h a b c d e f g i rest rfl).elim

theorem text_to_flattened_senses_length :
    ∀ (codewords : Codewords) (text : List Char) (senses : List Sense),
      text_to_flattened_senses codewords text = some senses →
      senses.length = (text.map (fun c => ((getCW codewords c).getD []).length)).sum := by
  intro codewords text
  induction text with
  | nil =>
      intro senses h
      simp only [text_to_flattened_senses, Option.some.injEq] at h
      rw [← h]
      rfl
  | cons c cs ih =>
      intro senses h
      simp only [text_to_flattened_senses] at h
      cases hg : getCW codewords c with
      | none => rw [hg] at h; exact absurd h (by simp)
      | some p =>
          rw [hg] at h
          cases hr : text_to_flattened_senses codewords cs with
          | none =>
              rw [hr] at h
              exact absurd h (by simp)
          | some rest =>
              rw [hr] at h
              have hps : p ++ rest = senses := Option.some.inj h
              rw [← hps]
              simp only [List.map_cons, List.sum_cons, List.length_append, hg,
                Option.getD_some, ih rest hr]

/-- C4 counterexample.  For the text "abcd" every codeword has length 2,
so the real data occupies exactly 8 bits; `padding_count = 8 - 8 % 8`
is then a full 8, a whole zero byte of padding is appended
(`encoded_chars` has 2 bytes for 8 real bits), and the padding is not
"strictly fewer than 8 bits" as the claim requires. -/
theorem c4_padding_can_reach_8 :
    (compressedOf ['a', 'b', 'c', 'd']).map
      (fun s => (s.senses_count, s.encoded_chars.length)) = some (8, 2) ∧
    ¬ (2 * 8 - 8 < 8) :=
  ⟨by decide, by decide⟩

/-- C4 amended: for every compressed text the recorded unpadded bit
count equals the sum of the codeword lengths over the symbols of the
text in order, the padding consists of `8 - len % 8` `Left`/0 senses
appended after all real data — between 1 and 8 of them inclusive (a
full zero byte when the bit count is already a multiple of 8) — and the
packed byte count accounts for data plus padding exactly. -/
theorem c4_bit_accounting (codewords : Codewords) (text : List Char)
    (senses : List Sense)
    (h : text_to_flattened_senses codewords text = some senses) :
    (senses_to_encoded_chars senses).2 =
      (text.map (fun c => ((getCW codewords c).getD []).length)).sum ∧
    (senses_to_encoded_chars senses).1 =
      packBytes (senses ++ List.replicate (8 - senses.length % 8) Sense.Left) ∧
    1 ≤ 8 - senses.length % 8 ∧ 8 - senses.length % 8 ≤ 8 ∧
    (senses_to_encoded_chars senses).1.length * 8 =
      senses.length + (8 - senses.length % 8) := by
  have hmod : senses.length % 8 < 8 := Nat.mod_lt _ (by omega)
  have hcount : (senses_to_encoded_chars senses).2 = senses.length := by
    simp only [senses_to_encoded_chars, List.length_append, List.length_replicate]
    omega
  refine ⟨hcount.trans (text_to_flattened_senses_length codewords text senses h),
    rfl, by omega, by omega, ?_⟩
  simp only [senses_to_encoded_chars, packBytes_length, List.length_append,
    List.length_replicate]
  omega

theorem c4_bit_accounting_witness :
    text_to_flattened_senses [('a', [Sense.Left])] ['a'] = some [Sense.Left] ∧
    (senses_to_encoded_chars [Sense.Left]).2 =
      ((['a'].map (fun c => ((getCW [('a', [Sense.Left])] c).getD []).length))).sum ∧
    1 ≤ 8 - ([Sense.Left] : List Sense).length % 8 ∧
    (senses_to_encoded_chars [Sense.Left]).1.length * 8 =
      ([Sense.Left] : List Sense).length +
        (8 - ([Sense.Left] : List Sense).length % 8) := by
  have hmain := c4_bit_accounting [('a', [Sense.Left])] ['a'] [Sense.Left] (by decide)
  exact ⟨by decide, hmain.1, hmain.2.2.1, hmain.2.2.2.2⟩

theorem follow_leaf {c : Char} {p : Path} {s : HuffmanTree} :
    follow (HuffmanTree.Leaf c) p = some s ↔ p = [] ∧ s = HuffmanTree.Leaf c := by
  cases p with
  | nil => simp [follow, eq_comm]
  | cons d p => simp [follow]

theorem weight_node {frequencies : Frequencies} {s t : HuffmanTree} :
    weight frequencies (HuffmanTree.Node s t) =
      weight frequencies s + weight frequencies t := rfl

theorem weight_leaf {frequencies : Frequencies} {c : Char} :
    weight frequencies (HuffmanTree.Leaf c) = freqOf frequencies c := rfl

theorem sep_symm {frequencies : Frequencies} :
    Symmetric (Sep frequencies) := by
  rintro t t' ⟨h1, h2, h3, h4⟩
  exact ⟨h2, h1, h4, h3⟩

theorem inv_perm {frequencies : Frequencies} {q q' : List HuffmanTree}
    (hperm : q.Perm q') (hi : Inv frequencies q) : Inv frequencies q' := by
  refine ⟨(hperm.pairwise_iff (fun h => sep_symm h)).1 hi.pair, ?_, ?_, ?_⟩
  · intro t ht
    exact hi.within t (hperm.mem_iff.2 ht)
  · intro t ht p s hp hf t' ht'
    exact hi.sub t (hperm.mem_iff.2 ht) p s hp hf t' (hperm.mem_iff.2 ht')
  · intro t ht
    exact hi.pos t (hperm.mem_iff.2 ht)

theorem mem_buildLeaves {frequencies : Frequencies} {t : HuffmanTree}
    (h : t ∈ buildLeaves frequencies) :
    ∃ i, i < 256 ∧ t = HuffmanTree.Leaf (Char.ofNat i) ∧
      0 < frequencies.getD i 0 := by
  rw [buildLeaves] at h
  obtain ⟨i, hi, hf⟩ := List.mem_filterMap.1 h
  by_cases hpos : 0 < frequencies.getD i 0
  · rw [if_pos hpos] at hf
    exact ⟨i, List.mem_range.1 hi, (Option.some.inj hf).symm, hpos⟩
  · rw [if_neg hpos] at hf
    exact absurd hf (by simp)

theorem sep_leaves {frequencies : Frequencies} {c d : Char} :
    Sep frequencies (HuffmanTree.Leaf c) (HuffmanTree.Leaf d) := by
  have cd : ∀ (x y : Char), CrossDepth frequencies
      (HuffmanTree.Leaf x) (HuffmanTree.Leaf y) := by
    intro x y a b pa pb ha hb _
    rw [(occAt_leaf.1 ha).2, (occAt_leaf.1 hb).2]
  have cc : ∀ (x y : Char), CrossChain frequencies
      (HuffmanTree.Leaf x) (HuffmanTree.Leaf y) := by
    intro x y a b p1 p2 q1 q2 sa sb h1 h2 h3 h4 _ hfreq
    obtain ⟨-, rfl⟩ := follow_leaf.1 h1
    obtain ⟨-, rfl⟩ := follow_leaf.1 h3
    obtain ⟨rfl, -⟩ := occAt_leaf.1 h2
    obtain ⟨rfl, -⟩ := occAt_leaf.1 h4
    rw [weight_leaf, weight_leaf]
    exact hfreq
  exact ⟨cd c d, cd d c, cc c d, cc d c⟩

theorem withinMono_leaf {frequencies : Frequencies} {c : Char} :
    WithinMono frequencies (HuffmanTree.Leaf c) := by
  intro a b pa pb ha hb _
  rw [(occAt_leaf.1 ha).2, (occAt_leaf.1 hb).2]

theorem inv_buildLeaves {frequencies : Frequencies} :
    Inv frequencies (buildLeaves frequencies) := by
  refine ⟨?_, ?_, ?_, ?_⟩
  · refine List.pairwise_of_forall_mem_list ?_
    intro t ht u hu
    obtain ⟨i, -, rfl, -⟩ := mem_buildLeaves ht
    obtain ⟨j, -, rfl, -⟩ := mem_buildLeaves hu
    exact sep_leaves
  · intro t ht
    obtain ⟨i, -, rfl, -⟩ := mem_buildLeaves ht
    exact withinMono_leaf
  · intro t ht p s hp hf
    obtain ⟨i, -, rfl, -⟩ := mem_buildLeaves ht
    obtain ⟨rfl, -⟩ := follow_leaf.1 hf
    exact absurd rfl hp
  · intro t ht
    obtain ⟨i, hi, rfl, hpos⟩ := mem_buildLeaves ht
    rw [weight_leaf, freqOf, char_toNat_ofNat hi]
    exact hpos

theorem follow_node_left {a b : HuffmanTree} {p : Path} :
    follow (HuffmanTree.Node a b) (Sense.Left :: p) = follow a p := rfl

theorem follow_node_right {a b : HuffmanTree} {p : Path} :
    follow (HuffmanTree.Node a b) (Sense.Right :: p) = follow b p := rfl

theorem occAt_compose {t sa : HuffmanTree} {x : Char} {p1 p2 : Path}
    (h1 : follow t p1 = some sa) (h2 : occAt sa x p2) : occAt t x (p1 ++ p2) := by
  rw [occAt, follow_append, h1]
  exact h2

/-- `follow` at the empty path returns the tree itself. -/
theorem follow_nil {t : HuffmanTree} : follow t [] = some t := by
  cases t <;> rfl

/-- Depth part of the separation between the freshly merged node and a
tree that stays in the queue: a strictly more frequent symbol inside
`Node a b` sits no deeper than a less frequent one inside `t3`.  Equal
depths before the merge are excluded by the chain property (they would
force `weight t3 < weight a ≤ weight t3`). -/
theorem crossDepth_node_staying {frequencies : Frequencies} {a b t3 : HuffmanTree}
    (cdA : CrossDepth frequencies a t3) (ccA : CrossChain frequencies a t3)
    (hwa : weight frequencies a ≤ weight frequencies t3)
    (cdB : CrossDepth frequencies b t3) (ccB : CrossChain frequencies b t3)
    (hwb : weight frequencies b ≤ weight frequencies t3) :
    CrossDepth frequencies (HuffmanTree.Node a b) t3 := by
  intro x y px py hx hy hfreq
  rcases occAt_node.1 hx with ⟨p', rfl, hx'⟩ | ⟨p', rfl, hx'⟩
  · have hle := cdA x y p' py hx' hy hfreq
    rcases Nat.lt_or_ge p'.length py.length with hlt | hge
    · simp only [List.length_cons]
      omega
    · have heq : p'.length = py.length := le_antisymm hle hge
      have := ccA x y [] p' [] py a t3 follow_nil hx' follow_nil hy heq hfreq
      omega
  · have hle := cdB x y p' py hx' hy hfreq
    rcases Nat.lt_or_ge p'.length py.length with hlt | hge
    · simp only [List.length_cons]
      omega
    · have heq : p'.length = py.length := le_antisymm hle hge
      have := ccB x y [] p' [] py b t3 follow_nil hx' follow_nil hy heq hfreq
      omega

/-- Depth part in the other direction: symbols inside a staying tree
versus symbols inside the freshly merged node, whose occurrences only
get deeper. -/
theorem crossDepth_staying_node {frequencies : Frequencies} {a b t3 : HuffmanTree}
    (cdA : CrossDepth frequencies t3 a) (cdB : CrossDepth frequencies t3 b) :
    CrossDepth frequencies t3 (HuffmanTree.Node a b) := by
  intro x y px py hx hy hfreq
  rcases occAt_node.1 hy with ⟨p', rfl, hy'⟩ | ⟨p', rfl, hy'⟩
  · have := cdA x y px p' hx hy' hfreq
    simp only [List.length_cons]
    omega
  · have := cdB x y px p' hx hy' hfreq
    simp only [List.length_cons]
    omega

/-- Within-tree depth monotonicity of the merged node, from the
within-tree properties of the parts and the cross properties between
them. -/
theorem withinMono_node {frequencies : Frequencies} {a b : HuffmanTree}
    (wA : WithinMono frequencies a) (wB : WithinMono frequencies b)
    (cdAB : CrossDepth frequencies a b) (cdBA : CrossDepth frequencies b a) :
    WithinMono frequencies (HuffmanTree.Node a b) := by
  intro x y px py hx hy hfreq
  rcases occAt_node.1 hx with ⟨p', rfl, hx'⟩ | ⟨p', rfl, hx'⟩ <;>
    rcases occAt_node.1 hy with ⟨q', rfl, hy'⟩ | ⟨q', rfl, hy'⟩ <;>
    simp only [List.length_cons]
  · have := wA x y p' q' hx' hy' hfreq; omega
  · have := cdAB x y p' q' hx' hy' hfreq; omega
  · have := cdBA x y p' q' hx' hy' hfreq; omega
  · have := wB x y p' q' hx' hy' hfreq; omega

/-- Chain part of the separation: merged node against a staying tree. -/
theorem crossChain_node_staying {frequencies : Frequencies} {a b t3 : HuffmanTree}
    (ccA : CrossChain frequencies a t3) (ccB : CrossChain frequencies b t3)
    (subA : ∀ p s, p ≠ [] → follow t3 p = some s →
      weight frequencies s ≤ weight frequencies a)
    (subB : ∀ p s, p ≠ [] → follow t3 p = some s →
      weight frequencies s ≤ weight frequencies b)
    (posA : 1 ≤ weight frequencies a) (posB : 1 ≤ weight frequencies b) :
    CrossChain frequencies (HuffmanTree.Node a b) t3 := by
  intro x y p1 p2 q1 q2 sa sb h1 h2 h3 h4 hlen hfreq
  cases p1 with
  | cons d p1' =>
      -- the ancestor of x lies inside one of the merged parts: the old
      -- chain property applies verbatim.
      cases d
      · rw [follow_node_left] at h1
        exact ccA x y p1' p2 q1 q2 sa sb h1 h2 h3 h4 hlen hfreq
      · rw [follow_node_right] at h1
        exact ccB x y p1' p2 q1 q2 sa sb h1 h2 h3 h4 hlen hfreq
  | nil =>
      -- the ancestor of x is the merged node itself
      rw [follow_nil] at h1
      obtain rfl := Option.some.inj h1
      cases q1 with
      | cons e q1' =>
          -- the ancestor of y is a proper subtree of t3: bounded by the
          -- global subtree bound, and the merged weight is strictly larger.
          have hsb : weight frequencies sb ≤ weight frequencies a :=
            subA (e :: q1') sb (by simp) h3
          rw [weight_node]
          omega
      | nil =>
          -- both ancestors are roots: split t3 into its two children
          -- and dominate each child separately.
          rw [follow_nil] at h3
          obtain rfl := Option.some.inj h3
          rcases occAt_node.1 h2 with ⟨p2', rfl, hx'⟩ | ⟨p2', rfl, hx'⟩
          · -- x inside a
            cases t3 with
            | Leaf c =>
                obtain ⟨-, rfl⟩ := occAt_leaf.1 h4
                simp at hlen
            | Node l r =>
                rcases occAt_node.1 h4 with ⟨q2', rfl, hy'⟩ | ⟨q2', rfl, hy'⟩
                · have hlen' : p2'.length = q2'.length := by
                    simp only [List.length_cons] at hlen
                    omega
                  have hcy : weight frequencies l < weight frequencies a :=
                    ccA x y [] p2' [Sense.Left] q2' a l follow_nil hx'
                      (by rw [follow_node_left]; exact follow_nil) hy' hlen' hfreq
                  have hcz : weight frequencies r ≤ weight frequencies b :=
                    subB [Sense.Right] r (by simp)
                      (by rw [follow_node_right]; exact follow_nil)
                  rw [weight_node, weight_node]
                  omega
                · have hlen' : p2'.length = q2'.length := by
                    simp only [List.length_cons] at hlen
                    omega
                  have hcy : weight frequencies r < weight frequencies a :=
                    ccA x y [] p2' [Sense.Right] q2' a r follow_nil hx'
                      (by rw [follow_node_right]; exact follow_nil) hy' hlen' hfreq
                  have hcz : weight frequencies l ≤ weight frequencies b :=
                    subB [Sense.Left] l (by simp)
                      (by rw [follow_node_left]; exact follow_nil)
                  rw [weight_node, weight_node]
                  omega
          · -- x inside b
            cases t3 with
            | Leaf c =>
                obtain ⟨-, rfl⟩ := occAt_leaf.1 h4
                simp at hlen
            | Node l r =>
                rcases occAt_node.1 h4 with ⟨q2', rfl, hy'⟩ | ⟨q2', rfl, hy'⟩
                · have hlen' : p2'.length = q2'.length := by
                    simp only [List.length_cons] at hlen
                    omega
                  have hcy : weight frequencies l < weight frequencies b :=
                    ccB x y [] p2' [Sense.Left] q2' b l follow_nil hx'
                      (by rw [follow_node_left]; exact follow_nil) hy' hlen' hfreq
                  have hcz : weight frequencies r ≤ weight frequencies a :=
                    subA [Sense.Right] r (by simp)
                      (by rw [follow_node_right]; exact follow_nil)
                  rw [weight_node, weight_node]
                  omega
                · have hlen' : p2'.length = q2'.length := by
                    simp only [List.length_cons] at hlen
                    omega
                  have hcy : weight frequencies r < weight frequencies b :=
                    ccB x y [] p2' [Sense.Right] q2' b r follow_nil hx'
                      (by rw [follow_node_right]; exact follow_nil) hy' hlen' hfreq
                  have hcz : weight frequencies l ≤ weight frequencies a :=
                    subA [Sense.Left] l (by simp)
                      (by rw [follow_node_left]; exact follow_nil)
                  rw [weight_node, weight_node]
                  omega

/-- Chain part of the separation in the other direction: a staying tree
against the merged node.  When both compared ancestors are the roots the
configuration is impossible: the depth bound forces the more frequent
symbol's ancestor chain to sit entirely inside `t3`'s top child, whose
weight is at once strictly above (old chain) and at most (subtree
bound) the weight of the merged part holding the less frequent symbol. -/
theorem crossChain_staying_node {frequencies : Frequencies} {a b t3 : HuffmanTree}
    (ccA : CrossChain frequencies t3 a) (ccB : CrossChain frequencies t3 b)
    (cd3N : CrossDepth frequencies t3 (HuffmanTree.Node a b))
    (subA : ∀ p s, p ≠ [] → follow t3 p = some s →
      weight frequencies s ≤ weight frequencies a)
    (subB : ∀ p s, p ≠ [] → follow t3 p = some s →
      weight frequencies s ≤ weight frequencies b) :
    CrossChain frequencies t3 (HuffmanTree.Node a b) := by
  intro x y p1 p2 q1 q2 sa sb h1 h2 h3 h4 hlen hfreq
  cases q1 with
  | cons e q1' =>
      cases e
      · rw [follow_node_left] at h3
        exact ccA x y p1 p2 q1' q2 sa sb h1 h2 h3 h4 hlen hfreq
      · rw [follow_node_right] at h3
        exact ccB x y p1 p2 q1' q2 sa sb h1 h2 h3 h4 hlen hfreq
  | nil =>
      rw [follow_nil] at h3
      obtain rfl := Option.some.inj h3
      exfalso
      rcases occAt_node.1 h4 with ⟨q2', rfl, hy'⟩ | ⟨q2', rfl, hy'⟩
      · -- y inside a
        have hocc : occAt t3 x (p1 ++ p2) := occAt_compose h1 h2
        have hdep := cd3N x y (p1 ++ p2) (Sense.Left :: q2') hocc
          (occAt_node.2 (Or.inl ⟨q2', rfl, hy'⟩)) hfreq
        have hp1 : p1 = [] := by
          rw [List.length_append] at hdep
          simp only [List.length_cons] at hdep hlen
          exact List.length_eq_zero.1 (by omega)
        subst hp1
        rw [follow_nil] at h1
        obtain rfl := Option.some.inj h1
        cases p2 with
        | nil => simp at hlen
        | cons d p2' =>
            cases t3 with
            | Leaf c =>
                obtain ⟨-, hcontra⟩ := occAt_leaf.1 h2
                simp at hcontra
            | Node l r =>
                have hlen' : p2'.length = q2'.length := by
                  simp only [List.length_cons] at hlen
                  omega
                rcases occAt_node.1 h2 with ⟨p2'', heq, hx'⟩ | ⟨p2'', heq, hx'⟩ <;>
                  obtain ⟨rfl, rfl⟩ := List.cons.inj heq
                · have hlt : weight frequencies a < weight frequencies l :=
                    ccA x y [Sense.Left] p2' [] q2' l a
                      (by rw [follow_node_left]; exact follow_nil) hx'
                      follow_nil hy' (by omega) hfreq
                  have hle : weight frequencies l ≤ weight frequencies a :=
                    subA [Sense.Left] l (by simp)
                      (by rw [follow_node_left]; exact follow_nil)
                  omega
                · have hlt : weight frequencies a < weight frequencies r :=
                    ccA x y [Sense.Right] p2' [] q2' r a
                      (by rw [follow_node_right]; exact follow_nil) hx'
                      follow_nil hy' (by omega) hfreq
                  have hle : weight frequencies r ≤ weight frequencies a :=
                    subA [Sense.Right] r (by simp)
                      (by rw [follow_node_right]; exact follow_nil)
                  omega
      · -- y inside b
        have hocc : occAt t3 x (p1 ++ p2) := occAt_compose h1 h2
        have hdep := cd3N x y (p1 ++ p2) (Sense.Right :: q2') hocc
          (occAt_node.2 (Or.inr ⟨q2', rfl, hy'⟩)) hfreq
        have hp1 : p1 = [] := by
          rw [List.length_append] at hdep
          simp only [List.length_cons] at hdep hlen
          exact List.length_eq_zero.1 (by omega)
        subst hp1
        rw [follow_nil] at h1
        obtain rfl := Option.some.inj h1
        cases p2 with
        | nil => simp at hlen
        | cons d p2' =>
            cases t3 with
            | Leaf c =>
                obtain ⟨-, hcontra⟩ := occAt_leaf.1 h2
                simp at hcontra
            | Node l r =>
                have hlen' : p2'.length = q2'.length := by
                  simp only [List.length_cons] at hlen
                  omega
                rcases occAt_node.1 h2 with ⟨p2'', heq, hx'⟩ | ⟨p2'', heq, hx'⟩ <;>
                  obtain ⟨rfl, rfl⟩ := List.cons.inj heq
                · have hlt : weight frequencies b < weight frequencies l :=
                    ccB x y [Sense.Left] p2' [] q2' l b
                      (by rw [follow_node_left]; exact follow_nil) hx'
                      follow_nil hy' (by omega) hfreq
                  have hle : weight frequencies l ≤ weight frequencies b :=
                    subB [Sense.Left] l (by simp)
                      (by rw [follow_node_left]; exact follow_nil)
                  omega
                · have hlt : weight frequencies b < weight frequencies r :=
                    ccB x y [Sense.Right] p2' [] q2' r b
                      (by rw [follow_node_right]; exact follow_nil) hx'
                      follow_nil hy' (by omega) hfreq
                  have hle : weight frequencies r ≤ weight frequencies b :=
                    subB [Sense.Right] r (by simp)
                      (by rw [follow_node_right]; exact follow_nil)
                  omega

/-- One pass of the merging loop preserves the queue invariant: if `a`
and `b` are the two popped minima (with `a` popped first), the queue
with `Node a b` pushed at the back satisfies `Inv` again. -/
theorem inv_step {frequencies : Frequencies} {a b : HuffmanTree}
    {q2 : List HuffmanTree}
    (inv : Inv frequencies (a :: b :: q2))
    (hab : weight frequencies a ≤ weight frequencies b)
    (hmin_a : ∀ u ∈ q2, weight frequencies a ≤ weight frequencies u)
    (hmin_b : ∀ u ∈ q2, weight frequencies b ≤ weight frequencies u) :
    Inv frequencies (q2 ++ [HuffmanTree.Node a b]) := by
  obtain ⟨hpair, hwithin, hsub, hpos⟩ := inv
  rw [List.pairwise_cons] at hpair
  obtain ⟨hsepA, hpair⟩ := hpair
  rw [List.pairwise_cons] at hpair
  obtain ⟨hsepB, hpair2⟩ := hpair
  have memA : a ∈ a :: b :: q2 := by simp
  have memB : b ∈ a :: b :: q2 := by simp
  have mem3 : ∀ t3 ∈ q2, t3 ∈ a :: b :: q2 := fun t3 h => by simp [h]
  have posA := hpos a memA
  have posB := hpos b memB
  have subA : ∀ t3 ∈ q2, ∀ p s, p ≠ [] → follow t3 p = some s →
      weight frequencies s ≤ weight frequencies a :=
    fun t3 h3 p s hp hf => hsub t3 (mem3 t3 h3) p s hp hf a memA
  have subB : ∀ t3 ∈ q2, ∀ p s, p ≠ [] → follow t3 p = some s →
      weight frequencies s ≤ weight frequencies b :=
    fun t3 h3 p s hp hf => hsub t3 (mem3 t3 h3) p s hp hf b memB
  have hsepN : ∀ t3 ∈ q2, Sep frequencies t3 (HuffmanTree.Node a b) := by
    intro t3 h3
    obtain ⟨cdA3, cd3A, ccA3, cc3A⟩ := hsepA t3 (by simp [h3])
    obtain ⟨cdB3, cd3B, ccB3, cc3B⟩ := hsepB t3 h3
    have hwa3 := hmin_a t3 h3
    have hwb3 := hmin_b t3 h3
    exact ⟨crossDepth_staying_node cd3A cd3B,
           crossDepth_node_staying cdA3 ccA3 hwa3 cdB3 ccB3 hwb3,
           crossChain_staying_node cc3A cc3B (crossDepth_staying_node cd3A cd3B)
             (subA t3 h3) (subB t3 h3),
           crossChain_node_staying ccA3 ccB3 (subA t3 h3) (subB t3 h3) posA posB⟩
  refine ⟨?_, ?_, ?_, ?_⟩
  · rw [List.pairwise_append]
    refine ⟨hpair2, List.pairwise_singleton _ _, ?_⟩
    intro t3 h3 u hu
    rw [List.mem_singleton] at hu
    subst hu
    exact hsepN t3 h3
  · intro t ht
    rcases List.mem_append.1 ht with h3 | hN
    · exact hwithin t (mem3 t h3)
    · rw [List.mem_singleton] at hN
      subst hN
      obtain ⟨cdAB, cdBA, -, -⟩ := hsepA b (by simp)
      exact withinMono_node (hwithin a memA) (hwithin b memB) cdAB cdBA
  · intro t ht p s hp hf t' ht'
    rcases List.mem_append.1 ht with h3 | hN
    · rcases List.mem_append.1 ht' with h3' | hN'
      · exact hsub t (mem3 t h3) p s hp hf t' (mem3 t' h3')
      · rw [List.mem_singleton] at hN'
        subst hN'
        have h1 : weight frequencies s ≤ weight frequencies a :=
          hsub t (mem3 t h3) p s hp hf a memA
        rw [weight_node]
        omega
    · rw [List.mem_singleton] at hN
      subst hN
      cases p with
      | nil => exact absurd rfl hp
      | cons d p' =>
          have hchild : ∃ u, (u = a ∨ u = b) ∧ follow u p' = some s := by
            cases d
            · exact ⟨a, Or.inl rfl, by rw [follow_node_left] at hf; exact hf⟩
            · exact ⟨b, Or.inr rfl, by rw [follow_node_right] at hf; exact hf⟩
          obtain ⟨u, hu, hfu⟩ := hchild
          cases p' with
          | nil =>
              rw [follow_nil] at hfu
              obtain rfl := Option.some.inj hfu
              rcases List.mem_append.1 ht' with h3' | hN'
              · rcases hu with rfl | rfl
                · exact hmin_a t' h3'
                · exact hmin_b t' h3'
              · rw [List.mem_singleton] at hN'
                subst hN'
                rw [weight_node]
                rcases hu with rfl | rfl <;> omega
          | cons d' p'' =>
              have hne : (d' :: p'') ≠ [] := by simp
              have hall : ∀ t'' ∈ a :: b :: q2,
                  weight frequencies s ≤ weight frequencies t'' := by
                rcases hu with rfl | rfl
                · exact fun t'' h'' => hsub u memA _ s hne hfu t'' h''
                · exact fun t'' h'' => hsub u memB _ s hne hfu t'' h''
              rcases List.mem_append.1 ht' with h3' | hN'
              · exact hall t' (mem3 t' h3')
              · rw [List.mem_singleton] at hN'
                subst hN'
                have := hall a memA
                rw [weight_node]
                omega
  · intro t ht
    rcases List.mem_append.1 ht with h3 | hN
    · exact hpos t (mem3 t h3)
    · rw [List.mem_singleton] at hN
      subst hN
      rw [weight_node]
      omega

/-- The merging loop turns an invariant-satisfying queue into a single
tree with depth-monotone codewords. -/
theorem mergeLoopFuel_withinMono {frequencies : Frequencies} :
    ∀ (fuel : Nat) (q : List HuffmanTree) (t : HuffmanTree),
      q.length ≤ fuel → Inv frequencies q →
      mergeLoopFuel frequencies fuel q = some t → WithinMono frequencies t := by
  intro fuel
  induction fuel with
  | zero =>
      intro q t h inv hm
      have : q = [] := List.length_eq_zero.1 (Nat.le_zero.1 h)
      rw [this] at hm
      exact absurd hm (by simp [mergeLoopFuel])
  | succ n ih =>
      intro q t h inv hm
      by_cases hq : 1 < q.length
      · have hne : q ≠ [] := by intro he; rw [he] at hq; simp at hq
        obtain ⟨a, q1, hp⟩ := @popMin_isSome frequencies q hne
        have e1 : q.length = q1.length + 1 := by
          simpa using (popMin_perm hp).length_eq
        have hne1 : q1 ≠ [] := by
          intro he; rw [he] at e1; simp at e1; omega
        obtain ⟨b, q2, hp2⟩ := @popMin_isSome frequencies q1 hne1
        have e2 : q1.length = q2.length + 1 := by
          simpa using (popMin_perm hp2).length_eq
        have hperm : q.Perm (a :: b :: q2) :=
          (popMin_perm hp).trans ((popMin_perm hp2).cons a)
        have inv' := inv_perm hperm inv
        have hab : weight frequencies a ≤ weight frequencies b :=
          popMin_min hp b (hperm.mem_iff.2 (by simp))
        have hmin_a : ∀ u ∈ q2, weight frequencies a ≤ weight frequencies u :=
          fun u hu => popMin_min hp u (hperm.mem_iff.2 (by simp [hu]))
        have hmin_b : ∀ u ∈ q2, weight frequencies b ≤ weight frequencies u :=
          fun u hu => popMin_min hp2 u ((popMin_perm hp2).mem_iff.2 (by simp [hu]))
        have inv2 := inv_step inv' hab hmin_a hmin_b
        rw [mergeLoopFuel_step hq hp hp2] at hm
        exact ih (q2 ++ [HuffmanTree.Node a b]) t
          (by simp only [List.length_append, List.length_cons, List.length_nil]; omega)
          inv2 hm
      · rw [mergeLoopFuel_stop hq] at hm
        cases q with
        | nil => exact absurd hm (by simp)
        | cons x xs =>
            cases xs with
            | nil =>
                simp only [List.head?_cons, Option.some.injEq] at hm
                rw [← hm]
                exact inv.within x (by simp)
            | cons y ys => simp [List.length_cons] at hq

/-- C8 counterexample.  For the text "abc" all three symbols have
frequency 1 (so `frequency(a) ≥ frequency(c)` holds both ways), yet the
built tree necessarily places one symbol at depth 1 and the others at
depth 2: here codeword('a') has length 2 and codeword('c') has
length 1, refuting "frequency(a) ≥ frequency(b) implies
length(a) ≤ length(b)" as stated, under the modelled (and any) merge
tie order. -/
theorem c8_equal_freq_not_monotone :
    codeLenOfText ['a', 'b', 'c'] 'a' = some 2 ∧
    codeLenOfText ['a', 'b', 'c'] 'c' = some 1 ∧
    freqOfText ['a', 'b', 'c'] 'a' = some 1 ∧
    freqOfText ['a', 'b', 'c'] 'c' = some 1 ∧
    ¬ (2 ≤ 1) :=
  ⟨by decide, by decide, by decide, by decide, by decide⟩

/-- C8 amended: with a strict frequency inequality the claim holds —
for every tree built by `from_file` and symbols `a`, `b` with
`frequency(b) < frequency(a)`, the codeword of `a` is at most as long
as the codeword of `b`.  (With mere `≥` the property fails on
equal-frequency symbols, see the counterexample.)  Proved by
maintaining, across the merge loop, pairwise depth monotonicity and
ancestor-chain weight domination between queue elements together with
the global bound that proper subtrees never outweigh queue roots. -/
theorem c8_code_length_monotone (text : List Char) (huf : Huffman) (n : Nat)
    (h : Huffman.from_file text = .ok (huf, n)) (a b : Char) (pa pb : Path)
    (ha : getCW (fill_codewords huf.freq_tree.tree) a = some pa)
    (hb : getCW (fill_codewords huf.freq_tree.tree) b = some pb)
    (hfreq : freqOf huf.freq_tree.frequencies b <
      freqOf huf.freq_tree.frequencies a) :
    pa.length ≤ pb.length := by
  obtain ⟨-, hm, -, -⟩ := from_file_ok h
  rw [mergeLoop] at hm
  have hw := mergeLoopFuel_withinMono _ _ _ le_rfl inv_buildLeaves hm
  exact hw a b pa pb (getCW_occAt ha) (getCW_occAt hb) hfreq

theorem c8_code_length_monotone_witness :
    Huffman.from_file ['a', 'a', 'b'] =
      .ok (⟨⟨((List.replicate 256 0).set 97 2).set 98 1,
             .Node (.Leaf 'b') (.Leaf 'a')⟩, ['a', 'a', 'b']⟩, 3) ∧
    getCW (fill_codewords (HuffmanTree.Node (.Leaf 'b') (.Leaf 'a'))) 'a' =
      some [Sense.Right] ∧
    getCW (fill_codewords (HuffmanTree.Node (.Leaf 'b') (.Leaf 'a'))) 'b' =
      some [Sense.Left] ∧
    freqOf (((List.replicate 256 0).set 97 2).set 98 1) 'b' <
      freqOf (((List.replicate 256 0).set 97 2).set 98 1) 'a' ∧
    ([Sense.Right] : Path).length ≤ ([Sense.Left] : Path).length :=
  ⟨by decide, by decide, by decide, by decide,
   c8_code_length_monotone ['a', 'a', 'b']
     ⟨⟨((List.replicate 256 0).set 97 2).set 98 1,
       .Node (.Leaf 'b') (.Leaf 'a')⟩, ['a', 'a', 'b']⟩ 3 (by decide)
     'a' 'b' [Sense.Right] [Sense.Left] (by decide) (by decide) (by decide)⟩

theorem c9_deserialise_failure_modes_witness :
    (fun _ : List Nat => (none : Option SerialisedHuffmanTree)) [] = none ∧
    deserialise none (fun _ => none) [] = .panicked ∧
    deserialise (some []) (fun _ => none) [] = .panicked :=
  ⟨rfl, (c9_deserialise_failure_modes (fun _ => none) [] [] rfl).1,
        (c9_deserialise_failure_modes (fun _ => none) [] [] rfl).2⟩

end HuffRs
